import Mathlib

/-!
Verification of the block codec of an LSM storage engine (Rust sources under
src/): the varint / fixed-width integer codec and checksum masking from
src/src/util/mod.rs, and the BlockBuilder from
src/src/table/block_based/block_builder.rs.

Modelling conventions:
* byte buffers are List Nat whose elements are below 256 by construction;
* Rust u32 / u64 casts are modelled by explicit % 2^32 / % 2^64 where the
  source performs an `as` conversion; usize counters that cannot overflow in
  any realizable memory are modelled by Nat directly;
* fallible decoding returns an explicit result type; an out-of-bounds slice
  index (which aborts a Rust process at runtime) is a distinguished outcome.
-/

namespace RocksRs

/-- Modulus of a 32-bit machine word. -/
abbrev W32 : Nat := 4294967296

/-- Modulus of a 64-bit machine word. -/
abbrev W64 : Nat := 18446744073709551616

/-! ## util/mod.rs : difference_offset -/

/-- Translation of util::difference_offset: length of the longest common
byte prefix of the two slices (the source loop walks indices while bytes
agree and both slices extend). -/
def difference_offset : List Nat → List Nat → Nat
  | a :: as_, b :: bs => if a = b then difference_offset as_ bs + 1 else 0
  | _, _ => 0

/-! ## util/mod.rs : varint encoding -/

/-- Translation of util::encode_var_uint32 (the five range branches of the
source, each emitting the exact bytes the source writes into tmp). A byte
with the continuation bit is written as ((n | 128) & 255), as in the source;
a final plain byte is an u8 cast, i.e. % 256. -/
def encode_var_uint32 (n : Nat) : List Nat :=
  if n < 128 then [n % 256]
  else if n < 16384 then
    [(n ||| 128) &&& 255, (n >>> 7) % 256]
  else if n < 2097152 then
    [(n ||| 128) &&& 255, ((n >>> 7) ||| 128) &&& 255, (n >>> 14) % 256]
  else if n < 268435456 then
    [(n ||| 128) &&& 255, ((n >>> 7) ||| 128) &&& 255, ((n >>> 14) ||| 128) &&& 255,
     (n >>> 21) % 256]
  else
    [(n ||| 128) &&& 255, ((n >>> 7) ||| 128) &&& 255, ((n >>> 14) ||| 128) &&& 255,
     ((n >>> 21) ||| 128) &&& 255, (n >>> 28) % 256]

/-- Translation of util::put_var_uint32: append the encoding to a growable
buffer. -/
def put_var_uint32 (data : List Nat) (n : Nat) : List Nat :=
  data ++ encode_var_uint32 n

/-- Translation of util::encode_var_uint64: the source loop emits
((v & 127) | 128) while v >= 128, then the final byte v (an u8 cast). -/
def encode_var_uint64 (v : Nat) : List Nat :=
  if h : v < 128 then [v % 256]
  else ((v &&& 127) ||| 128) :: encode_var_uint64 (v >>> 7)
termination_by v
decreasing_by
  simp only [Nat.shiftRight_eq_div_pow]
  omega

/-- Translation of util::put_var_uint64. -/
def put_var_uint64 (data : List Nat) (v : Nat) : List Nat :=
  data ++ encode_var_uint64 v

/-- Result of util::get_var_uint32. ok carries the decoded value and the
updated offset argument; fail carries the (unchanged) offset argument at the
point the source returns None; oob marks an out-of-bounds slice index, which
aborts a Rust process rather than returning. -/
inductive U32Res where
  | ok (v off : Nat)
  | fail (off : Nat)
  | oob
deriving DecidableEq, Repr

/-- Translation of the for-loop of util::get_var_uint32 (for i in 0..5).
The fuel argument counts the remaining iterations, starting at 5; the
source checks i > data.len() before indexing data[i], so an index equal to
data.len() reaches the indexing operation and is out of bounds. -/
def get_var_uint32_loop (data : List Nat) (off : Nat) : Nat → Nat → Nat → U32Res
  | _ret, _i, 0 => .fail off
  | ret, i, fuel + 1 =>
    if i > data.length then .fail off
    else
      match data.get? i with
      | none => .oob
      | some b =>
        if b &&& 128 ≠ 0 then
          get_var_uint32_loop data off (ret ||| ((b &&& 127) <<< (7 * i))) (i + 1) fuel
        else .ok (ret ||| (b <<< (7 * i))) (off + i + 1)

/-- Translation of util::get_var_uint32. The fast path returns data[0] when
its continuation bit is clear; otherwise the source enters the 0..5 loop. -/
def get_var_uint32 (data : List Nat) (offset : Nat) : U32Res :=
  match data with
  | [] => .fail offset
  | b :: _ =>
    if b &&& 128 = 0 then .ok b (offset + 1)
    else get_var_uint32_loop data offset 0 0 5

/-- Result of util::get_var_uint64: ok or fail, each carrying the updated
next_offset argument (the source advances next_offset on both paths). -/
inductive U64Res where
  | ok (v off : Nat)
  | fail (off : Nat)
deriving DecidableEq, Repr

/-- Translation of the while-loop of util::get_var_uint64: rem is the part
of the slice from the loop offset on, shift and consumed mirror the shift
and offset variables, ret accumulates decoded groups. Every exit of the
source loop adds offset + 1 to next_offset. -/
def get_var_uint64_loop : List Nat → Nat → Nat → Nat → U64Res
  | rem, shift, consumed, ret =>
    if shift ≤ 63 then
      match rem with
      | [] => .fail (consumed + 1)
      | b :: rest =>
        if b &&& 128 ≠ 0 then
          get_var_uint64_loop rest (shift + 7) (consumed + 1) (ret ||| ((b &&& 127) <<< shift))
        else .ok (ret ||| (b <<< shift)) (consumed + 1)
    else .fail (consumed + 1)

/-- Translation of util::get_var_uint64: run the loop and add the offset
delta it reports to the caller-supplied next_offset. -/
def get_var_uint64 (data : List Nat) (next_offset : Nat) : U64Res :=
  match get_var_uint64_loop data 0 0 0 with
  | .ok v d => .ok v (next_offset + d)
  | .fail d => .fail (next_offset + d)

/-! ## util/mod.rs : checksum masking -/

/-- Translation of util::MASK_DELTA. -/
abbrev MASK_DELTA : Nat := 0xa282ead8

/-- Translation of util::crc_mask: ((crc >> 15) | crc.wrapping_shl(17))
.wrapping_add(MASK_DELTA) on u32. -/
def crc_mask (crc : Nat) : Nat :=
  (((crc >>> 15) ||| ((crc <<< 17) % W32)) + MASK_DELTA) % W32

/-- Translation of util::crc_unmask: rot = masked.wrapping_sub(MASK_DELTA);
(rot >> 17) | rot.wrapping_shl(15) on u32. -/
def crc_unmask (masked_crc : Nat) : Nat :=
  let rot := (masked_crc + (W32 - MASK_DELTA)) % W32
  (rot >>> 17) ||| ((rot <<< 15) % W32)

/-! ## table/block_based: collaborators of the BlockBuilder that are not in
the shown sources (options.rs, data_block_hash_index_builder.rs,
common/format.rs, block.rs, table/format.rs). These are modelled from the
spec, as marked on each declaration. -/

/-- Translation of options::DataBlockIndexType, whose two variants are named
in block_builder.rs and the spec. -/
inductive DataBlockIndexType where
  | DataBlockBinarySearch
  | DataBlockBinaryAndHash
deriving DecidableEq, Repr

/-- Modelled from the spec: common::format::extract_user_key strips the
trailing internal metadata (a packed 8-byte sequence-number/type tag, cf. the
pack_sequence_and_type little-endian u64 used by the tests) from an internal
key, leaving the logical user key. -/
def extract_user_key (key : List Nat) : List Nat :=
  key.take (key.length - 8)

/-- Modelled from the spec: table::format::MAX_BLOCK_SIZE_SUPPORTED_BY_HASH_INDEX
is a fixed size ceiling above which a block degrades to binary-search-only;
the exact value is not in the shown sources and no theorem below depends on
it. -/
def MAX_BLOCK_SIZE_SUPPORTED_BY_HASH_INDEX : Nat := 65536

/-- Modelled from the spec: block::pack_index_type_and_num_restarts packs the
index type into the high bits of a little-endian u32 footer and the restart
count into the low bits; modelled with the index type as the single top bit. -/
def pack_index_type_and_num_restarts (t : DataBlockIndexType) (num_restarts : Nat) : Nat :=
  (match t with
   | .DataBlockBinarySearch => 0
   | .DataBlockBinaryAndHash => 1) * 2147483648 + num_restarts % 2147483648

/-- Modelled from the spec: DataBlockHashIndexBuilder state. The utilization
ratio is 0 until init is called and the builder reports itself valid only
when initialized with a positive ratio; entries records the
(user key, restart index) pairs given to add. The bucket layout of the real
serialization is not in the shown sources. -/
@[ext]
structure DataBlockHashIndexBuilder where
  util_ratio : ℚ
  entries : List (List Nat × Nat)
deriving DecidableEq, Repr

namespace DataBlockHashIndexBuilder

/-- Modelled from the spec: Default::default() leaves the builder
uninitialized. -/
def defaultBuilder : DataBlockHashIndexBuilder := ⟨0, []⟩

/-- Modelled from the spec: init activates the builder with a target load
factor. -/
def init (h : DataBlockHashIndexBuilder) (ratio : ℚ) : DataBlockHashIndexBuilder :=
  { h with util_ratio := ratio }

/-- Modelled from the spec: valid() is true only after init with a positive
ratio. -/
def valid (h : DataBlockHashIndexBuilder) : Bool :=
  decide (0 < h.util_ratio)

/-- Modelled from the spec: add records a (user key, restart index) bucket
assignment. -/
def addEntry (h : DataBlockHashIndexBuilder) (user_key : List Nat) (restart_index : Nat) :
    DataBlockHashIndexBuilder :=
  { h with entries := h.entries ++ [(user_key, restart_index)] }

/-- Modelled from the spec: finish serializes the bucket table into the
target buffer. The exact byte format is not in the shown sources; it is
modelled as one byte per recorded entry (the restart index as an u8), which
no theorem below inspects further. -/
def finishBytes (h : DataBlockHashIndexBuilder) : List Nat :=
  h.entries.map (fun e => e.2 % 256)

/-- Modelled from the spec: estimate_size is the byte cost of serializing
now. -/
def estimate_size (h : DataBlockHashIndexBuilder) : Nat :=
  h.finishBytes.length

/-- Modelled from the spec: clear resets the buckets while preserving the
initialized ratio. -/
def clearEntries (h : DataBlockHashIndexBuilder) : DataBlockHashIndexBuilder :=
  { h with entries := [] }

end DataBlockHashIndexBuilder

/-! ## table/block_based/block_builder.rs : BlockBuilder -/

/-- Little-endian byte splitting of an u32, as produced by to_le_bytes in
BlockBuilder::finish. -/
def u32_le_bytes (n : Nat) : List Nat :=
  [n % 256, n / 256 % 256, n / 65536 % 256, n / 16777216 % 256]

/-- Little-endian u32 read of the first four bytes of a buffer (the reader
side decode_fixed_uint32). -/
def le_decode_u32 (data : List Nat) : Nat :=
  (data.getD 0 0) + (data.getD 1 0) * 256 + (data.getD 2 0) * 65536 +
    (data.getD 3 0) * 16777216

/-- Translation of the BlockBuilder struct. -/
@[ext]
structure BlockBuilder where
  buff : List Nat
  restarts : List Nat
  last_key : List Nat
  count : Nat
  block_restart_interval : Nat
  use_delta_encoding : Bool
  hash_index_builder : DataBlockHashIndexBuilder
  estimate : Nat
deriving DecidableEq, Repr

namespace BlockBuilder

/-- Translation of BlockBuilder::new. -/
def new (block_restart_interval : Nat) (use_delta_encoding : Bool)
    (index_type : DataBlockIndexType) (data_block_hash_table_util_ratio : ℚ) :
    BlockBuilder :=
  let hash_index_builder :=
    if index_type = DataBlockIndexType.DataBlockBinaryAndHash then
      DataBlockHashIndexBuilder.defaultBuilder.init data_block_hash_table_util_ratio
    else DataBlockHashIndexBuilder.defaultBuilder
  { buff := []
    block_restart_interval
    use_delta_encoding
    hash_index_builder
    restarts := [0]
    estimate := 8
    count := 0
    last_key := [] }

/-- Translation of BlockBuilder::is_empty. -/
def isEmptyBuff (s : BlockBuilder) : Bool :=
  s.buff.isEmpty

/-- Translation of BlockBuilder::add. The restart branch pushes the current
buffer length as an u32, charges 4 bytes to the estimate and resets the run;
shared is the common-prefix length with last_key only in the delta branch.
The three varints receive usize values cast to u32. -/
def add (s : BlockBuilder) (key value : List Nat) : BlockBuilder :=
  let step :=
    if s.count ≥ s.block_restart_interval then
      ({ s with
          restarts := s.restarts ++ [s.buff.length % W32]
          estimate := s.estimate + 4
          count := 0
          last_key := if s.use_delta_encoding then key else s.last_key }, 0)
    else if s.use_delta_encoding then
      ({ s with last_key := key }, difference_offset s.last_key key)
    else (s, 0)
  let s1 := step.1
  let shared := step.2
  let non_shared := key.length - shared
  let entry :=
    encode_var_uint32 (shared % W32) ++ encode_var_uint32 (non_shared % W32) ++
      encode_var_uint32 (value.length % W32) ++ key.drop shared ++ value
  let s2 := { s1 with buff := s1.buff ++ entry }
  let s3 :=
    if s2.hash_index_builder.valid then
      { s2 with hash_index_builder :=
          s2.hash_index_builder.addEntry (extract_user_key key) (s2.restarts.length - 1) }
    else s2
  { s3 with estimate := s3.estimate + entry.length, count := s3.count + 1 }

/-- Translation of BlockBuilder::current_size_estimate. -/
def current_size_estimate (s : BlockBuilder) : Nat :=
  s.estimate + (if s.hash_index_builder.valid then s.hash_index_builder.estimate_size else 0)

/-- Translation of BlockBuilder::finish, as the byte buffer it returns: the
entry bytes already in buff, every restart offset as little-endian u32, the
hash index bytes when it is valid and the size estimate is below the
ceiling, and the packed 4-byte footer. -/
def finish (s : BlockBuilder) : List Nat :=
  let buff1 := s.buff ++ (s.restarts.map u32_le_bytes).flatten
  if s.hash_index_builder.valid ∧
      s.current_size_estimate < MAX_BLOCK_SIZE_SUPPORTED_BY_HASH_INDEX then
    buff1 ++ s.hash_index_builder.finishBytes ++
      u32_le_bytes (pack_index_type_and_num_restarts
        DataBlockIndexType.DataBlockBinaryAndHash (s.restarts.length % W32))
  else
    buff1 ++ u32_le_bytes (pack_index_type_and_num_restarts
        DataBlockIndexType.DataBlockBinarySearch (s.restarts.length % W32))

/-- Translation of BlockBuilder::clear. -/
def clear (s : BlockBuilder) : BlockBuilder :=
  { s with
      buff := []
      restarts := [0]
      estimate := 8
      count := 0
      last_key := []
      hash_index_builder :=
        if s.hash_index_builder.valid then s.hash_index_builder.clearEntries
        else s.hash_index_builder }

/-- Folding a sequence of add calls over a builder state. -/
def addAll (s : BlockBuilder) (kvs : List (List Nat × List Nat)) : BlockBuilder :=
  kvs.foldl (fun t kv => t.add kv.1 kv.2) s

/-- Shared-prefix length that add computes for a key in a given state: 0 at a
restart boundary or when delta encoding is off, otherwise the common-prefix
length with last_key. -/
def sharedOf (s : BlockBuilder) (key : List Nat) : Nat :=
  if s.count ≥ s.block_restart_interval then 0
  else if s.use_delta_encoding then difference_offset s.last_key key else 0

/-- Bytes one add call appends to buff: the three varints, the key suffix
and the value. -/
def entryBytes (shared : Nat) (key value : List Nat) : List Nat :=
  encode_var_uint32 (shared % W32) ++ encode_var_uint32 ((key.length - shared) % W32) ++
    encode_var_uint32 (value.length % W32) ++ key.drop shared ++ value

/-- Entry-region bytes an add sequence appends, as a pure recursion over the
sequence, tracking the last key and the intra-run counter exactly as add
does. -/
def encKVs (interval : Nat) (delta : Bool) :
    List (List Nat × List Nat) → List Nat → Nat → List Nat
  | [], _, _ => []
  | (k, v) :: rest, lastKey, count =>
    if count ≥ interval then
      entryBytes 0 k v ++ encKVs interval delta rest (if delta then k else lastKey) 1
    else
      entryBytes (if delta then difference_offset lastKey k else 0) k v ++
        encKVs interval delta rest (if delta then k else lastKey) (count + 1)

end BlockBuilder

/-! ## Block reader (spec-modelled)

The reader/iterator (block.rs) is not among the shown sources; §4.3 of the
spec describes its observable behavior, which is modelled here for the
sequential-scan path: parse the footer, locate the end of the entry region,
then decode entries in order, reconstructing each key from the previous full
key's shared prefix and the stored suffix. -/

/-- Conversion of a get_var_uint32 call at the head of a slice into an
optional (value, consumed bytes) pair, as the reader consumes varints; any
non-ok outcome is a decode failure. -/
def readVar32 (data : List Nat) : Option (Nat × Nat) :=
  match get_var_uint32 data 0 with
  | .ok v o => some (v, o)
  | _ => none

/-- Modelled from the spec: decode of one block entry at the head of data,
given the previous full key. Reads the three varints
(shared, non_shared, value_len), then the key suffix and value bytes;
returns the reconstructed (key, value) and the number of bytes consumed. -/
def readEntry (data : List Nat) (lastKey : List Nat) :
    Option ((List Nat × List Nat) × Nat) :=
  match readVar32 data with
  | none => none
  | some (shared, o1) =>
    match readVar32 (data.drop o1) with
    | none => none
    | some (non_shared, o2) =>
      match readVar32 ((data.drop o1).drop o2) with
      | none => none
      | some (value_len, o3) =>
        let rest := ((data.drop o1).drop o2).drop o3
        if non_shared + value_len ≤ rest.length then
          some ((lastKey.take shared ++ rest.take non_shared,
                 (rest.drop non_shared).take value_len),
                o1 + o2 + o3 + non_shared + value_len)
        else none

/-- Modelled from the spec: the forward scan of the entry region, i.e.
seek_to_first followed by repeated next until the cursor reaches the restart
array. The fuel argument bounds the number of entries by the number of
remaining bytes (each entry consumes at least one byte). -/
def readEntries : Nat → List Nat → List Nat → Option (List (List Nat × List Nat))
  | _, [], _ => some []
  | 0, _ :: _, _ => none
  | fuel + 1, data, lastKey =>
    match readEntry data lastKey with
    | none => none
    | some (kv, consumed) =>
      if consumed = 0 then none
      else
        match readEntries fuel (data.drop consumed) kv.1 with
        | none => none
        | some rest => some (kv :: rest)

/-- Modelled from the spec: the whole-block sequential read. Parses the
trailing 4-byte footer for the restart count, cuts the restart array (4
bytes per restart) off the end, and scans the entry region from the first
entry with an empty initial key. -/
def blockEntries (block : List Nat) : Option (List (List Nat × List Nat)) :=
  if block.length < 4 then none
  else
    let footer := le_decode_u32 (block.drop (block.length - 4))
    let num_restarts := footer % 2147483648
    if block.length - 4 < 4 * num_restarts then none
    else
      let entry_end := block.length - 4 - 4 * num_restarts
      readEntries entry_end (block.take entry_end) []

/-- Strict byte-lexicographic order on keys, used to state the ascending-key
hypotheses of the spec. -/
def keyLt : List Nat → List Nat → Bool
  | [], [] => false
  | [], _ :: _ => true
  | _ :: _, [] => false
  | a :: as_, b :: bs => if a < b then true else if a = b then keyLt as_ bs else false

/-- Keys of a key/value sequence are strictly ascending. -/
def StrictlyAscending (kvs : List (List Nat × List Nat)) : Prop :=
  List.Pairwise (fun a b => keyLt a.1 b.1 = true) kvs

instance : DecidablePred StrictlyAscending := fun kvs =>
  inferInstanceAs (Decidable (List.Pairwise _ kvs))

/-! ## Bit-arithmetic toolkit -/

theorem lor_mul_pow {a m : Nat} (h : a < 2 ^ m) (b : Nat) :
    a ||| b * 2 ^ m = a + b * 2 ^ m := by
  rw [Nat.or_comm, Nat.mul_comm b, ← Nat.mul_add_lt_is_or h b]
  omega

theorem lor_shiftLeft_add {a m : Nat} (h : a < 2 ^ m) (b : Nat) :
    a ||| b <<< m = a + b * 2 ^ m := by
  rw [Nat.shiftLeft_eq]
  exact lor_mul_pow h b

theorem low_and_128 {r : Nat} (h : r < 128) : r &&& 128 = 0 := by
  apply Nat.eq_of_testBit_eq
  intro i
  rw [Nat.testBit_and, Nat.zero_testBit]
  rcases eq_or_ne i 7 with rfl | hi
  · rw [Nat.testBit_lt_two_pow (x := r) (i := 7) h]
    simp
  · have h128 : Nat.testBit 128 i = false := by
      rw [show (128 : Nat) = 2 ^ 7 from rfl, Nat.testBit_two_pow]
      simp [Ne.symm hi]
    simp [h128]

theorem lor_128_of_lt {r : Nat} (h : r < 128) : r ||| 128 = r + 128 := by
  have := lor_mul_pow (m := 7) (b := 1) h
  simpa using this

theorem add128_and_128 {r : Nat} (h : r < 128) : (r + 128) &&& 128 = 128 := by
  rw [← lor_128_of_lt h, Nat.and_distrib_right, low_and_128 h]
  decide

theorem add128_and_127 {r : Nat} (h : r < 128) : (r + 128) &&& 127 = r := by
  rw [← lor_128_of_lt h, Nat.and_distrib_right,
    show (127 : Nat) = 2 ^ 7 - 1 from rfl, Nat.and_pow_two_sub_one_eq_mod,
    Nat.mod_eq_of_lt h]
  have h128 : (128 : Nat) &&& 2 ^ 7 - 1 = 0 := by decide
  rw [h128]
  simp

theorem lt256_lor_128 {m : Nat} (h : m < 256) : m ||| 128 = m % 128 + 128 := by
  by_cases h1 : m < 128
  · rw [lor_128_of_lt h1, Nat.mod_eq_of_lt h1]
  · have hm : m = m % 128 + 128 := by omega
    have hr : m % 128 < 128 := Nat.mod_lt _ (by omega)
    conv_lhs => rw [hm]
    rw [← lor_128_of_lt hr, Nat.or_assoc, Nat.or_self, lor_128_of_lt hr]

theorem or_128_and_255 (n : Nat) : (n ||| 128) &&& 255 = n % 128 + 128 := by
  rw [Nat.and_distrib_right, show (255 : Nat) = 2 ^ 8 - 1 from rfl,
    Nat.and_pow_two_sub_one_eq_mod]
  have h128 : (128 : Nat) &&& 2 ^ 8 - 1 = 128 := by decide
  rw [h128, lt256_lor_128 (Nat.mod_lt _ (by omega)), Nat.mod_mod_of_dvd n (by omega)]

theorem and_127_eq_mod (n : Nat) : n &&& 127 = n % 128 := by
  rw [show (127 : Nat) = 2 ^ 7 - 1 from rfl, Nat.and_pow_two_sub_one_eq_mod]

/-! ## Claim C6 : checksum mask / unmask are mutually inverse -/

theorem rot32_eq {k x : Nat} (hk : k ≤ 32) (hx : x < W32) :
    (x >>> k) ||| ((x <<< (32 - k)) % W32) = x / 2 ^ k + (x % 2 ^ k) * 2 ^ (32 - k) := by
  rw [Nat.shiftRight_eq_div_pow, Nat.shiftLeft_eq]
  have hW : W32 = 2 ^ k * 2 ^ (32 - k) := by
    rw [← pow_add, show k + (32 - k) = 32 by omega]
    rfl
  have h1 : x * 2 ^ (32 - k) % W32 = x % 2 ^ k * 2 ^ (32 - k) := by
    rw [hW, Nat.mul_mod_mul_right]
  rw [h1]
  apply lor_mul_pow
  rw [Nat.div_lt_iff_lt_mul (Nat.two_pow_pos k), mul_comm, ← hW]
  exact hx

theorem rot_involution {X : Nat} (h : X < W32) :
    (X / 131072 + X % 131072 * 32768) / 32768 = X % 131072 ∧
    (X / 131072 + X % 131072 * 32768) % 32768 = X / 131072 := by
  have hW0 : W32 = 4294967296 := rfl
  rw [hW0] at h
  have hq : X / 131072 < 32768 := by omega
  constructor
  · rw [Nat.add_mul_div_right _ _ (by norm_num : (0:Nat) < 32768), Nat.div_eq_of_lt hq]
    omega
  · rw [Nat.add_mul_mod_self_right, Nat.mod_eq_of_lt hq]

/-- Claim C6: crc_mask is rotate-right by 15 plus 0xA282EAD8 (wrapping), and
crc_unmask is its exact inverse: both round trips are the identity on every
32-bit value. -/
theorem c6_crc_mask_unmask_inverse :
    (∀ crc, crc < W32 → crc_unmask (crc_mask crc) = crc) ∧
    (∀ m, m < W32 → crc_mask (crc_unmask m) = m) := by
  have hrot15 : ∀ x, x < W32 →
      (x >>> 15) ||| ((x <<< 17) % W32) = x / 32768 + x % 32768 * 131072 := by
    intro x hx
    have := rot32_eq (k := 15) (x := x) (by omega) hx
    norm_num at this ⊢
    exact this
  have hrot17 : ∀ x, x < W32 →
      (x >>> 17) ||| ((x <<< 15) % W32) = x / 131072 + x % 131072 * 32768 := by
    intro x hx
    have := rot32_eq (k := 17) (x := x) (by omega) hx
    norm_num at this ⊢
    exact this
  have hW : W32 = 4294967296 := rfl
  have hD : MASK_DELTA = 0xa282ead8 := rfl
  constructor
  · intro crc hc
    unfold crc_mask crc_unmask
    rw [hrot15 crc hc]
    have hr15 : crc / 32768 + crc % 32768 * 131072 < W32 := by
      omega
    have hrot_eq : ((crc / 32768 + crc % 32768 * 131072 + MASK_DELTA) % W32 +
        (W32 - MASK_DELTA)) % W32 = crc / 32768 + crc % 32768 * 131072 := by
      simp only [hW, hD]
      omega
    rw [hrot_eq, hrot17 _ hr15]
    omega
  · intro m hm
    simp only [crc_mask, crc_unmask]
    have hrotm : (m + (W32 - MASK_DELTA)) % W32 < W32 := by
      apply Nat.mod_lt
      simp [hW]
    rw [hrot17 _ hrotm]
    have hu : (m + (W32 - MASK_DELTA)) % W32 / 131072 +
        (m + (W32 - MASK_DELTA)) % W32 % 131072 * 32768 < W32 := by
      simp only [hW, hD]
      omega
    rw [hrot15 _ hu]
    rw [(rot_involution hrotm).1, (rot_involution hrotm).2]
    have e3 : (m + (W32 - MASK_DELTA)) % W32 % 131072 +
        (m + (W32 - MASK_DELTA)) % W32 / 131072 * 131072 =
        (m + (W32 - MASK_DELTA)) % W32 := by
      omega
    rw [e3]
    simp only [hW, hD] at hm ⊢
    omega

/-- Witness for C6 at the concrete value 3735928559. -/
theorem c6_witness :
    crc_unmask (crc_mask 3735928559) = 3735928559 ∧
    crc_mask (crc_unmask 3735928559) = 3735928559 :=
  ⟨c6_crc_mask_unmask_inverse.1 3735928559 (by decide),
   c6_crc_mask_unmask_inverse.2 3735928559 (by decide)⟩

/-! ## Varint lemmas -/

theorem encode_var_uint32_eq (n : Nat) :
    encode_var_uint32 n =
      if n < 128 then [n]
      else if n < 16384 then [n % 128 + 128, n / 128]
      else if n < 2097152 then [n % 128 + 128, n / 128 % 128 + 128, n / 16384]
      else if n < 268435456 then
        [n % 128 + 128, n / 128 % 128 + 128, n / 16384 % 128 + 128, n / 2097152]
      else [n % 128 + 128, n / 128 % 128 + 128, n / 16384 % 128 + 128,
        n / 2097152 % 128 + 128, n / 268435456 % 256] := by
  unfold encode_var_uint32
  split_ifs with h1 h2 h3 h4 <;>
    simp only [or_128_and_255, Nat.shiftRight_eq_div_pow, List.cons.injEq, and_true] <;>
    norm_num <;> omega

theorem get32_loop_cont {data : List Nat} {i b : Nat} (off ret fuel : Nat)
    (hb : data.get? i = some b) (hcont : b &&& 128 ≠ 0) :
    get_var_uint32_loop data off ret i (fuel + 1) =
      get_var_uint32_loop data off (ret ||| ((b &&& 127) <<< (7 * i))) (i + 1) fuel := by
  have hlen : ¬ i > data.length := by
    obtain ⟨hlt, -⟩ := List.get?_eq_some.mp hb
    omega
  simp only [get_var_uint32_loop, if_neg hlen, hb, if_pos hcont]

theorem get32_loop_fin {data : List Nat} {i b : Nat} (off ret fuel : Nat)
    (hb : data.get? i = some b) (hfin : b &&& 128 = 0) :
    get_var_uint32_loop data off ret i (fuel + 1) =
      .ok (ret ||| (b <<< (7 * i))) (off + i + 1) := by
  have hlen : ¬ i > data.length := by
    obtain ⟨hlt, -⟩ := List.get?_eq_some.mp hb
    omega
  simp only [get_var_uint32_loop, if_neg hlen, hb]
  rw [if_neg (by simp [hfin])]

theorem get32_of_encode {n : Nat} (hn : n < W32) (rest : List Nat) (off : Nat) :
    get_var_uint32 (encode_var_uint32 n ++ rest) off =
      .ok n (off + (encode_var_uint32 n).length) := by
  have hW0 : W32 = 4294967296 := rfl
  rw [hW0] at hn
  have hm : ∀ a : Nat, a % 128 < 128 := fun a => Nat.mod_lt _ (by norm_num)
  rw [encode_var_uint32_eq]
  by_cases h1 : n < 128
  · simp only [if_pos h1, List.cons_append, List.nil_append]
    simp only [get_var_uint32]
    rw [if_pos (low_and_128 h1)]
    simp
  by_cases h2 : n < 16384
  · simp only [if_neg h1, if_pos h2, List.cons_append, List.nil_append]
    simp only [get_var_uint32]
    rw [if_neg (by rw [add128_and_128 (hm n)]; norm_num)]
    have hb0 : ((n % 128 + 128) :: (n / 128) :: rest).get? 0 = some (n % 128 + 128) := rfl
    have hb1 : ((n % 128 + 128) :: (n / 128) :: rest).get? 1 = some (n / 128) := rfl
    rw [get32_loop_cont _ _ _ hb0 (by rw [add128_and_128 (hm n)]; norm_num)]
    rw [get32_loop_fin _ _ _ hb1 (low_and_128 (show n / 128 < 128 by omega))]
    rw [add128_and_127 (hm n)]
    simp only [show (7:Nat) * 2 = 14 from rfl, show (7:Nat) * 3 = 21 from rfl,
      show (7:Nat) * 4 = 28 from rfl, Nat.mul_zero, Nat.mul_one, Nat.shiftLeft_zero,
      Nat.zero_or]
    rw [lor_shiftLeft_add (show n % 128 < 2 ^ 7 by omega)]
    simp only [U32Res.ok.injEq, List.length_cons, List.length_nil]
    constructor
    all_goals try norm_num
    all_goals omega
  by_cases h3 : n < 2097152
  · simp only [if_neg h1, if_neg h2, if_pos h3, List.cons_append, List.nil_append]
    simp only [get_var_uint32]
    rw [if_neg (by rw [add128_and_128 (hm n)]; norm_num)]
    have hb0 : ((n % 128 + 128) :: (n / 128 % 128 + 128) :: (n / 16384) :: rest).get? 0 = some (n % 128 + 128) := rfl
    have hb1 : ((n % 128 + 128) :: (n / 128 % 128 + 128) :: (n / 16384) :: rest).get? 1 = some (n / 128 % 128 + 128) := rfl
    have hb2 : ((n % 128 + 128) :: (n / 128 % 128 + 128) :: (n / 16384) :: rest).get? 2 = some (n / 16384) := rfl
    rw [get32_loop_cont _ _ _ hb0 (by rw [add128_and_128 (hm n)]; norm_num)]
    rw [get32_loop_cont _ _ _ hb1 (by rw [add128_and_128 (hm (n / 128))]; norm_num)]
    rw [get32_loop_fin _ _ _ hb2 (low_and_128 (show n / 16384 < 128 by omega))]
    rw [add128_and_127 (hm n), add128_and_127 (hm (n / 128))]
    simp only [show (7:Nat) * 2 = 14 from rfl, show (7:Nat) * 3 = 21 from rfl,
      show (7:Nat) * 4 = 28 from rfl, Nat.mul_zero, Nat.mul_one, Nat.shiftLeft_zero,
      Nat.zero_or]
    rw [lor_shiftLeft_add (show n % 128 < 2 ^ 7 by omega)]
    rw [lor_shiftLeft_add (show n % 128 + n / 128 % 128 * 2 ^ 7 < 2 ^ 14 by
      norm_num
      omega)]
    simp only [U32Res.ok.injEq, List.length_cons, List.length_nil]
    constructor
    all_goals try norm_num
    all_goals omega
  by_cases h4 : n < 268435456
  · simp only [if_neg h1, if_neg h2, if_neg h3, if_pos h4, List.cons_append, List.nil_append]
    simp only [get_var_uint32]
    rw [if_neg (by rw [add128_and_128 (hm n)]; norm_num)]
    have hb0 : ((n % 128 + 128) :: (n / 128 % 128 + 128) :: (n / 16384 % 128 + 128) :: (n / 2097152) :: rest).get? 0 = some (n % 128 + 128) := rfl
    have hb1 : ((n % 128 + 128) :: (n / 128 % 128 + 128) :: (n / 16384 % 128 + 128) :: (n / 2097152) :: rest).get? 1 = some (n / 128 % 128 + 128) := rfl
    have hb2 : ((n % 128 + 128) :: (n / 128 % 128 + 128) :: (n / 16384 % 128 + 128) :: (n / 2097152) :: rest).get? 2 = some (n / 16384 % 128 + 128) := rfl
    have hb3 : ((n % 128 + 128) :: (n / 128 % 128 + 128) :: (n / 16384 % 128 + 128) :: (n / 2097152) :: rest).get? 3 = some (n / 2097152) := rfl
    rw [get32_loop_cont _ _ _ hb0 (by rw [add128_and_128 (hm n)]; norm_num)]
    rw [get32_loop_cont _ _ _ hb1 (by rw [add128_and_128 (hm (n / 128))]; norm_num)]
    rw [get32_loop_cont _ _ _ hb2 (by rw [add128_and_128 (hm (n / 16384))]; norm_num)]
    rw [get32_loop_fin _ _ _ hb3 (low_and_128 (show n / 2097152 < 128 by omega))]
    rw [add128_and_127 (hm n), add128_and_127 (hm (n / 128)), add128_and_127 (hm (n / 16384))]
    simp only [show (7:Nat) * 2 = 14 from rfl, show (7:Nat) * 3 = 21 from rfl,
      show (7:Nat) * 4 = 28 from rfl, Nat.mul_zero, Nat.mul_one, Nat.shiftLeft_zero,
      Nat.zero_or]
    rw [lor_shiftLeft_add (show n % 128 < 2 ^ 7 by omega)]
    rw [lor_shiftLeft_add (show n % 128 + n / 128 % 128 * 2 ^ 7 < 2 ^ 14 by
      norm_num
      omega)]
    rw [lor_shiftLeft_add (show n % 128 + n / 128 % 128 * 2 ^ 7 + n / 16384 % 128 * 2 ^ 14 < 2 ^ 21 by
      norm_num
      omega)]
    simp only [U32Res.ok.injEq, List.length_cons, List.length_nil]
    constructor
    all_goals try norm_num
    all_goals omega
  · simp only [if_neg h1, if_neg h2, if_neg h3, if_neg h4, List.cons_append, List.nil_append]
    simp only [get_var_uint32]
    rw [if_neg (by rw [add128_and_128 (hm n)]; norm_num)]
    have hb0 : ((n % 128 + 128) :: (n / 128 % 128 + 128) :: (n / 16384 % 128 + 128) :: (n / 2097152 % 128 + 128) :: (n / 268435456 % 256) :: rest).get? 0 = some (n % 128 + 128) := rfl
    have hb1 : ((n % 128 + 128) :: (n / 128 % 128 + 128) :: (n / 16384 % 128 + 128) :: (n / 2097152 % 128 + 128) :: (n / 268435456 % 256) :: rest).get? 1 = some (n / 128 % 128 + 128) := rfl
    have hb2 : ((n % 128 + 128) :: (n / 128 % 128 + 128) :: (n / 16384 % 128 + 128) :: (n / 2097152 % 128 + 128) :: (n / 268435456 % 256) :: rest).get? 2 = some (n / 16384 % 128 + 128) := rfl
    have hb3 : ((n % 128 + 128) :: (n / 128 % 128 + 128) :: (n / 16384 % 128 + 128) :: (n / 2097152 % 128 + 128) :: (n / 268435456 % 256) :: rest).get? 3 = some (n / 2097152 % 128 + 128) := rfl
    have hb4 : ((n % 128 + 128) :: (n / 128 % 128 + 128) :: (n / 16384 % 128 + 128) :: (n / 2097152 % 128 + 128) :: (n / 268435456 % 256) :: rest).get? 4 = some (n / 268435456 % 256) := rfl
    rw [get32_loop_cont _ _ _ hb0 (by rw [add128_and_128 (hm n)]; norm_num)]
    rw [get32_loop_cont _ _ _ hb1 (by rw [add128_and_128 (hm (n / 128))]; norm_num)]
    rw [get32_loop_cont _ _ _ hb2 (by rw [add128_and_128 (hm (n / 16384))]; norm_num)]
    rw [get32_loop_cont _ _ _ hb3 (by rw [add128_and_128 (hm (n / 2097152))]; norm_num)]
    rw [get32_loop_fin _ _ _ hb4 (low_and_128 (show n / 268435456 % 256 < 128 by omega))]
    rw [add128_and_127 (hm n), add128_and_127 (hm (n / 128)), add128_and_127 (hm (n / 16384)), add128_and_127 (hm (n / 2097152))]
    simp only [show (7:Nat) * 2 = 14 from rfl, show (7:Nat) * 3 = 21 from rfl,
      show (7:Nat) * 4 = 28 from rfl, Nat.mul_zero, Nat.mul_one, Nat.shiftLeft_zero,
      Nat.zero_or]
    rw [lor_shiftLeft_add (show n % 128 < 2 ^ 7 by omega)]
    rw [lor_shiftLeft_add (show n % 128 + n / 128 % 128 * 2 ^ 7 < 2 ^ 14 by
      norm_num
      omega)]
    rw [lor_shiftLeft_add (show n % 128 + n / 128 % 128 * 2 ^ 7 + n / 16384 % 128 * 2 ^ 14 < 2 ^ 21 by
      norm_num
      omega)]
    rw [lor_shiftLeft_add (show n % 128 + n / 128 % 128 * 2 ^ 7 + n / 16384 % 128 * 2 ^ 14 + n / 2097152 % 128 * 2 ^ 21 < 2 ^ 28 by
      norm_num
      omega)]
    simp only [U32Res.ok.injEq, List.length_cons, List.length_nil]
    constructor
    all_goals try norm_num
    all_goals omega

/-! ## u64 varint lemmas -/

theorem encode_var_uint64_eq (v : Nat) :
    encode_var_uint64 v =
      if v < 128 then [v] else (v % 128 + 128) :: encode_var_uint64 (v / 128) := by
  conv_lhs => rw [encode_var_uint64]
  split_ifs with h
  · rw [Nat.mod_eq_of_lt (show v < 256 by omega)]
  · rw [and_127_eq_mod, lor_128_of_lt (Nat.mod_lt _ (by norm_num)),
      Nat.shiftRight_eq_div_pow]

theorem encode64_ne_nil (v : Nat) : encode_var_uint64 v ≠ [] := by
  rw [encode_var_uint64_eq]
  split_ifs <;> simp

theorem encode64_length_pos (v : Nat) : 1 ≤ (encode_var_uint64 v).length := by
  have := encode64_ne_nil v
  cases h : encode_var_uint64 v
  · exact absurd h this
  · simp

theorem encode64_length_le : ∀ k v : Nat, 1 ≤ k → v < 2 ^ (7 * k) →
    (encode_var_uint64 v).length ≤ k := by
  intro k
  induction k with
  | zero => omega
  | succ k ih =>
    intro v _ hv
    rw [encode_var_uint64_eq]
    split_ifs with h
    · simp
    · have hk1 : 1 ≤ k := by
        by_contra hc
        push_neg at hc
        interval_cases k
        norm_num at hv
        omega
      have hdiv : v / 128 < 2 ^ (7 * k) := by
        rw [Nat.div_lt_iff_lt_mul (by norm_num : (0:Nat) < 128)]
        calc v < 2 ^ (7 * (k + 1)) := hv
        _ = 2 ^ (7 * k) * 128 := by
          rw [show 7 * (k + 1) = 7 * k + 7 by ring, pow_add]
          norm_num
      have := ih (v / 128) hk1 hdiv
      simp only [List.length_cons]
      omega

theorem get64_loop_of_encode : ∀ v k consumed ret : Nat, ∀ rest : List Nat,
    7 * k ≤ 63 → v < 2 ^ (64 - 7 * k) → ret < 2 ^ (7 * k) →
    get_var_uint64_loop (encode_var_uint64 v ++ rest) (7 * k) consumed ret =
      .ok (ret + v * 2 ^ (7 * k)) (consumed + (encode_var_uint64 v).length) := by
  intro v
  induction v using Nat.strong_induction_on with
  | _ v ih =>
    intro k consumed ret rest hk hv hret
    rw [encode_var_uint64_eq]
    split_ifs with h
    · simp only [List.cons_append]
      rw [get_var_uint64_loop]
      rw [if_pos hk]
      rw [if_neg (by simp [low_and_128 h])]
      rw [lor_shiftLeft_add hret]
      simp
    · have hv128 : 128 ≤ v := by omega
      have hdiv : v / 128 < v := by omega
      have hmlt : v % 128 < 128 := Nat.mod_lt _ (by norm_num)
      have hk8 : 7 * k ≤ 56 := by
        by_contra hc
        push_neg at hc
        have h7 : 64 - 7 * k ≤ 7 := by omega
        have : (2:Nat) ^ (64 - 7 * k) ≤ 2 ^ 7 := Nat.pow_le_pow_right (by norm_num) h7
        norm_num at this
        omega
      simp only [List.cons_append]
      rw [get_var_uint64_loop]
      rw [if_pos hk]
      rw [if_pos (by rw [add128_and_128 hmlt]; norm_num)]
      rw [add128_and_127 hmlt, lor_shiftLeft_add hret]
      have hstep : 7 * k + 7 = 7 * (k + 1) := by ring
      rw [hstep]
      have hco : 7 * (k + 1) ≤ 63 := by omega
      have hvd : v / 128 < 2 ^ (64 - 7 * (k + 1)) := by
        rw [Nat.div_lt_iff_lt_mul (by norm_num : (0:Nat) < 128)]
        calc v < 2 ^ (64 - 7 * k) := hv
        _ = 2 ^ (64 - 7 * (k + 1)) * 128 := by
          rw [show (64 - 7 * (k + 1)) = 64 - 7 * k - 7 by omega]
          rw [show (2:Nat) ^ (64 - 7 * k) = 2 ^ (64 - 7 * k - 7 + 7) by
            rw [show 64 - 7 * k - 7 + 7 = 64 - 7 * k by omega]]
          rw [pow_add]
          norm_num
      have hrd : ret + v % 128 * 2 ^ (7 * k) < 2 ^ (7 * (k + 1)) := by
        have hx : v % 128 * 2 ^ (7 * k) ≤ 127 * 2 ^ (7 * k) :=
          Nat.mul_le_mul_right _ (by omega)
        have hp : (2:Nat) ^ (7 * (k + 1)) = 2 ^ (7 * k) * 128 := by
          rw [← hstep, pow_add]
          norm_num
        rw [hp]
        omega
      rw [ih (v / 128) hdiv (k + 1) (consumed + 1) _ rest hco hvd hrd]
      have hval : ret + v % 128 * 2 ^ (7 * k) + v / 128 * 2 ^ (7 * (k + 1)) =
          ret + v * 2 ^ (7 * k) := by
        have hsplit : v % 128 + v / 128 * 128 = v := by omega
        calc ret + v % 128 * 2 ^ (7 * k) + v / 128 * 2 ^ (7 * (k + 1)) =
            ret + (v % 128 + v / 128 * 128) * 2 ^ (7 * k) := by
              rw [← hstep, pow_add]
              ring
        _ = ret + v * 2 ^ (7 * k) := by rw [hsplit]
      rw [hval]
      simp only [List.length_cons]
      congr 1
      omega

theorem get64_of_encode {v : Nat} (hv : v < W64) (off : Nat) :
    get_var_uint64 (encode_var_uint64 v) off =
      .ok v (off + (encode_var_uint64 v).length) := by
  unfold get_var_uint64
  have h := get64_loop_of_encode v 0 0 0 [] (by norm_num) (by
    have hW : W64 = 2 ^ 64 := by norm_num
    rw [hW] at hv
    simpa using hv) (by norm_num)
  rw [List.append_nil] at h
  rw [h]
  norm_num

theorem encode64_split (v : Nat) :
    ∃ pre last, encode_var_uint64 v = pre ++ [last] ∧
      (∀ b ∈ pre, 128 ≤ b ∧ b < 256) ∧ last < 128 := by
  induction v using Nat.strong_induction_on with
  | _ v ih =>
    rw [encode_var_uint64_eq]
    split_ifs with h
    · exact ⟨[], v, by simp, by simp, h⟩
    · have hdiv : v / 128 < v := by omega
      obtain ⟨pre, last, heq, hpre, hlast⟩ := ih (v / 128) hdiv
      refine ⟨(v % 128 + 128) :: pre, last, by rw [heq]; simp, ?_, hlast⟩
      intro b hb
      rcases List.mem_cons.mp hb with hb1 | hb1
      · have := Nat.mod_lt v (y := 128) (by norm_num)
        omega
      · exact hpre b hb1

/-! ## Failure-path offset lemmas -/

theorem get32_loop_fail_off (data : List Nat) (off : Nat) :
    ∀ fuel i ret o, get_var_uint32_loop data off ret i fuel = .fail o → o = off := by
  intro fuel
  induction fuel with
  | zero =>
    intro i ret o h
    simp only [get_var_uint32_loop, U32Res.fail.injEq] at h
    omega
  | succ fuel ih =>
    intro i ret o h
    simp only [get_var_uint32_loop] at h
    by_cases hlen : i > data.length
    · rw [if_pos hlen] at h
      simp only [U32Res.fail.injEq] at h
      omega
    · rw [if_neg hlen] at h
      cases hg : data.get? i with
      | none =>
        simp only [hg] at h
        exact U32Res.noConfusion h
      | some b =>
        simp only [hg] at h
        by_cases hc : b &&& 128 ≠ 0
        · rw [if_pos hc] at h
          exact ih _ _ _ h
        · rw [if_neg hc] at h
          simp at h

theorem get32_fail_offset (data : List Nat) (off o : Nat)
    (h : get_var_uint32 data off = .fail o) : o = off := by
  cases data with
  | nil =>
    simp only [get_var_uint32, U32Res.fail.injEq] at h
    omega
  | cons b t =>
    simp only [get_var_uint32] at h
    by_cases hc : b &&& 128 = 0
    · rw [if_pos hc] at h
      simp at h
    · rw [if_neg hc] at h
      exact get32_loop_fail_off _ _ _ _ _ _ h

theorem get64_loop_fail : ∀ (rem : List Nat) (k consumed ret o : Nat),
    get_var_uint64_loop rem (7 * k) consumed ret = .fail o →
    o = consumed + min rem.length (10 - k) + 1 := by
  intro rem
  induction rem with
  | nil =>
    intro k consumed ret o h
    simp only [get_var_uint64_loop] at h
    split_ifs at h <;> simp only [U64Res.fail.injEq] at h <;> simp <;> omega
  | cons b rest ih =>
    intro k consumed ret o h
    simp only [get_var_uint64_loop] at h
    by_cases hs : 7 * k ≤ 63
    · rw [if_pos hs] at h
      by_cases hc : b &&& 128 ≠ 0
      · rw [if_pos hc] at h
        have hrec := ih (k + 1) (consumed + 1) _ o
          (by rw [show 7 * (k + 1) = 7 * k + 7 by ring]; exact h)
        simp only [List.length_cons]
        omega
      · rw [if_neg hc] at h
        simp at h
    · rw [if_neg hs] at h
      simp only [U64Res.fail.injEq] at h
      simp only [List.length_cons]
      omega

theorem get64_fail_offset (data : List Nat) (off o : Nat)
    (h : get_var_uint64 data off = .fail o) : o = off + min data.length 10 + 1 := by
  unfold get_var_uint64 at h
  cases hl : get_var_uint64_loop data 0 0 0 with
  | ok v d =>
    rw [hl] at h
    simp at h
  | fail d =>
    rw [hl] at h
    simp only [U64Res.fail.injEq] at h
    have := get64_loop_fail data 0 0 0 d (by exact hl)
    omega

/-! ## Claims C7, C9, C10 -/

/-- Claim C7 (refuted by the code, a code bug): on a truncated varint — every
byte up to the end of the slice carrying the continuation bit — get_var_uint32
does NOT return None for slices of length 1 to 4: its guard (i > data.len())
is off by one, so it indexes data[data.len()] out of bounds, which aborts a
Rust process (modelled by the oob outcome). get_var_uint64 does return None
as the claim states. The inputs below evaluate the code at the failing
inputs. -/
theorem c7_truncated_varint_code_bug :
    get_var_uint32 [128] 0 = U32Res.oob ∧
    get_var_uint32 [128, 128, 128, 128] 0 = U32Res.oob ∧
    get_var_uint64 [128] 0 = U64Res.fail 2 := by
  refine ⟨rfl, rfl, rfl⟩

theorem encode32_facts {n : Nat} (hn : n < W32) :
    1 ≤ (encode_var_uint32 n).length ∧ (encode_var_uint32 n).length ≤ 5 ∧
    (∀ b ∈ (encode_var_uint32 n).dropLast, 128 ≤ b ∧ b < 256) ∧
    (encode_var_uint32 n).getLastD 0 < 128 := by
  have hW0 : W32 = 4294967296 := rfl
  rw [hW0] at hn
  have hm : ∀ a : Nat, a % 128 < 128 := fun a => Nat.mod_lt _ (by norm_num)
  rw [encode_var_uint32_eq]
  split_ifs with h1 h2 h3 h4
  · refine ⟨by simp, by simp, by simp, ?_⟩
    simp only [List.getLastD_cons, List.getLastD_nil]
    omega
  · refine ⟨by simp, by simp, ?_, ?_⟩
    · intro b hb
      simp only [List.dropLast_cons₂, List.dropLast_single, List.mem_cons,
        List.mem_singleton, List.not_mem_nil, or_false] at hb
      rcases hb with rfl
      · have := hm n
        omega
    · simp only [List.getLastD_cons, List.getLastD_nil]
      omega
  · refine ⟨by simp, by simp, ?_, ?_⟩
    · intro b hb
      simp only [List.dropLast_cons₂, List.dropLast_single, List.mem_cons,
        List.mem_singleton, List.not_mem_nil, or_false] at hb
      rcases hb with rfl | rfl
      · have := hm n
        omega
      · have := hm (n / 128)
        omega
    · simp only [List.getLastD_cons, List.getLastD_nil]
      omega
  · refine ⟨by simp, by simp, ?_, ?_⟩
    · intro b hb
      simp only [List.dropLast_cons₂, List.dropLast_single, List.mem_cons,
        List.mem_singleton, List.not_mem_nil, or_false] at hb
      rcases hb with rfl | rfl | rfl
      · have := hm n
        omega
      · have := hm (n / 128)
        omega
      · have := hm (n / 16384)
        omega
    · simp only [List.getLastD_cons, List.getLastD_nil]
      omega
  · refine ⟨by simp, by simp, ?_, ?_⟩
    · intro b hb
      simp only [List.dropLast_cons₂, List.dropLast_single, List.mem_cons,
        List.mem_singleton, List.not_mem_nil, or_false] at hb
      rcases hb with rfl | rfl | rfl | rfl
      · have := hm n
        omega
      · have := hm (n / 128)
        omega
      · have := hm (n / 16384)
        omega
      · have := hm (n / 2097152)
        omega
    · simp only [List.getLastD_cons, List.getLastD_nil]
      omega

/-- Claim C9: for every u32, encode_var_uint32 emits 1 to 5 bytes, every byte
except the last carries the continuation (high) bit, the last does not, and
get_var_uint32 decodes the bytes back to the value, advancing the offset by
exactly the encoded length; likewise for u64 with 1 to 10 bytes via
encode_var_uint64 / get_var_uint64. -/
theorem c9_varint_roundtrip :
    (∀ n : Nat, n < W32 →
      1 ≤ (encode_var_uint32 n).length ∧ (encode_var_uint32 n).length ≤ 5 ∧
      (∀ b ∈ (encode_var_uint32 n).dropLast, 128 ≤ b ∧ b < 256) ∧
      (encode_var_uint32 n).getLastD 0 < 128 ∧
      (∀ off : Nat, get_var_uint32 (encode_var_uint32 n) off =
        U32Res.ok n (off + (encode_var_uint32 n).length))) ∧
    (∀ v : Nat, v < W64 →
      1 ≤ (encode_var_uint64 v).length ∧ (encode_var_uint64 v).length ≤ 10 ∧
      (∀ b ∈ (encode_var_uint64 v).dropLast, 128 ≤ b ∧ b < 256) ∧
      (encode_var_uint64 v).getLastD 0 < 128 ∧
      (∀ off : Nat, get_var_uint64 (encode_var_uint64 v) off =
        U64Res.ok v (off + (encode_var_uint64 v).length))) := by
  constructor
  · intro n hn
    obtain ⟨g1, g2, g3, g4⟩ := encode32_facts hn
    refine ⟨g1, g2, g3, g4, fun off => ?_⟩
    have := get32_of_encode hn [] off
    rwa [List.append_nil] at this
  · intro v hv
    obtain ⟨pre, last, heq, hpre, hlast⟩ := encode64_split v
    refine ⟨encode64_length_pos v, ?_, ?_, ?_, fun off => get64_of_encode hv off⟩
    · refine encode64_length_le 10 v (by norm_num) ?_
      calc v < W64 := hv
      _ ≤ 2 ^ (7 * 10) := by norm_num
    · rw [heq, List.dropLast_concat]
      exact hpre
    · rw [heq, List.getLastD_concat]
      exact hlast

/-- Witness for C9 at n = 300 and v = 300. -/
theorem c9_witness :
    (1 ≤ (encode_var_uint32 300).length ∧ (encode_var_uint32 300).length ≤ 5 ∧
      (∀ b ∈ (encode_var_uint32 300).dropLast, 128 ≤ b ∧ b < 256) ∧
      (encode_var_uint32 300).getLastD 0 < 128 ∧
      (∀ off : Nat, get_var_uint32 (encode_var_uint32 300) off =
        U32Res.ok 300 (off + (encode_var_uint32 300).length))) ∧
    (1 ≤ (encode_var_uint64 300).length ∧ (encode_var_uint64 300).length ≤ 10 ∧
      (∀ b ∈ (encode_var_uint64 300).dropLast, 128 ≤ b ∧ b < 256) ∧
      (encode_var_uint64 300).getLastD 0 < 128 ∧
      (∀ off : Nat, get_var_uint64 (encode_var_uint64 300) off =
        U64Res.ok 300 (off + (encode_var_uint64 300).length))) :=
  ⟨c9_varint_roundtrip.1 300 (by norm_num), c9_varint_roundtrip.2 300 (by norm_num)⟩

/-- Claim C10: when get_var_uint32 returns None its offset argument is left
unchanged, while a failing get_var_uint64 always advances its next_offset
argument by the number of bytes examined plus one (min(len, 10) + 1), so it
is not side-effect-free on the caller offset. -/
theorem c10_fail_offset :
    (∀ (data : List Nat) (off o : Nat), get_var_uint32 data off = U32Res.fail o → o = off) ∧
    (∀ (data : List Nat) (off o : Nat), get_var_uint64 data off = U64Res.fail o →
      o = off + min data.length 10 + 1 ∧ off < o) := by
  constructor
  · exact fun data off o h => get32_fail_offset data off o h
  · intro data off o h
    have := get64_fail_offset data off o h
    omega

/-- Witness for C10: the empty slice fails on both decoders, leaving the u32
offset unchanged and advancing the u64 offset. -/
theorem c10_witness :
    ((5 : Nat) = 5) ∧
    ((6 : Nat) = 5 + min (List.length ([] : List Nat)) 10 + 1 ∧ (5 : Nat) < 6) :=
  ⟨c10_fail_offset.1 [] 5 5 rfl, c10_fail_offset.2 [] 5 6 rfl⟩

/-! ## BlockBuilder step characterization -/

namespace BlockBuilder

theorem add_fields (s : BlockBuilder) (k v : List Nat) :
    (s.add k v).buff = s.buff ++ entryBytes (sharedOf s k) k v ∧
    (s.add k v).restarts = (if s.count ≥ s.block_restart_interval
        then s.restarts ++ [s.buff.length % W32] else s.restarts) ∧
    (s.add k v).last_key = (if s.use_delta_encoding then k else s.last_key) ∧
    (s.add k v).count = (if s.count ≥ s.block_restart_interval then 1 else s.count + 1) ∧
    (s.add k v).block_restart_interval = s.block_restart_interval ∧
    (s.add k v).use_delta_encoding = s.use_delta_encoding ∧
    (s.add k v).estimate = s.estimate +
      (if s.count ≥ s.block_restart_interval then 4 else 0) +
      (entryBytes (sharedOf s k) k v).length ∧
    (s.add k v).hash_index_builder = (if s.hash_index_builder.valid
        then s.hash_index_builder.addEntry (extract_user_key k)
          ((if s.count ≥ s.block_restart_interval
            then s.restarts ++ [s.buff.length % W32] else s.restarts).length - 1)
        else s.hash_index_builder) := by
  unfold add entryBytes sharedOf
  by_cases hc : s.count ≥ s.block_restart_interval <;>
    by_cases hd : s.use_delta_encoding <;>
    by_cases hv : s.hash_index_builder.valid <;>
    simp [hc, hd, hv]

theorem addAll_cons (s : BlockBuilder) (k v : List Nat)
    (kvs : List (List Nat × List Nat)) :
    addAll s ((k, v) :: kvs) = addAll (s.add k v) kvs := rfl

theorem addAll_nil (s : BlockBuilder) : addAll s [] = s := rfl

theorem entryBytes_ne_nil (shared : Nat) (k v : List Nat) :
    entryBytes shared k v ≠ [] := by
  unfold entryBytes
  rw [encode_var_uint32_eq]
  split_ifs <;> simp

theorem add_config (s : BlockBuilder) (k v : List Nat) :
    (s.add k v).block_restart_interval = s.block_restart_interval ∧
    (s.add k v).use_delta_encoding = s.use_delta_encoding ∧
    (s.add k v).hash_index_builder.util_ratio = s.hash_index_builder.util_ratio ∧
    (s.add k v).hash_index_builder.valid = s.hash_index_builder.valid := by
  obtain ⟨-, -, -, -, h5, h6, -, h8⟩ := add_fields s k v
  refine ⟨h5, h6, ?_, ?_⟩ <;> rw [h8] <;> split_ifs <;>
    simp [DataBlockHashIndexBuilder.addEntry, DataBlockHashIndexBuilder.valid]

theorem addAll_config (kvs : List (List Nat × List Nat)) : ∀ s : BlockBuilder,
    (addAll s kvs).block_restart_interval = s.block_restart_interval ∧
    (addAll s kvs).use_delta_encoding = s.use_delta_encoding ∧
    (addAll s kvs).hash_index_builder.util_ratio = s.hash_index_builder.util_ratio ∧
    (addAll s kvs).hash_index_builder.valid = s.hash_index_builder.valid := by
  induction kvs with
  | nil => intro s; simp [addAll_nil]
  | cons kv kvs ih =>
    intro s
    obtain ⟨k, v⟩ := kv
    rw [addAll_cons]
    obtain ⟨i1, i2, i3, i4⟩ := ih (s.add k v)
    obtain ⟨a1, a2, a3, a4⟩ := add_config s k v
    exact ⟨i1.trans a1, i2.trans a2, i3.trans a3, i4.trans a4⟩

theorem addAll_buff_mono (kvs : List (List Nat × List Nat)) : ∀ s : BlockBuilder,
    s.buff.length ≤ (addAll s kvs).buff.length := by
  induction kvs with
  | nil => intro s; simp [addAll_nil]
  | cons kv kvs ih =>
    intro s
    obtain ⟨k, v⟩ := kv
    rw [addAll_cons]
    have h1 := (add_fields s k v).1
    have h2 := ih (s.add k v)
    rw [h1] at h2
    simp at h2
    omega

end BlockBuilder

/-! ## Claim C3 : restart array is never empty and starts at offset 0 -/

theorem addAll_restarts_head (kvs : List (List Nat × List Nat)) :
    ∀ s : BlockBuilder, s.restarts ≠ [] → s.restarts.head? = some 0 →
    (BlockBuilder.addAll s kvs).restarts ≠ [] ∧
      (BlockBuilder.addAll s kvs).restarts.head? = some 0 := by
  induction kvs with
  | nil =>
    intro s h1 h2
    exact ⟨h1, h2⟩
  | cons kv kvs ih =>
    intro s h1 h2
    obtain ⟨k, v⟩ := kv
    rw [BlockBuilder.addAll_cons]
    have hr := (BlockBuilder.add_fields s k v).2.1
    refine ih (s.add k v) ?_ ?_
    · rw [hr]
      split_ifs <;> simp [h1]
    · rw [hr]
      split_ifs with hc
    --  append keeps the head of a nonempty list
      · cases hcs : s.restarts with
        | nil => exact absurd hcs h1
        | cons a t =>
          rw [hcs] at h2
          simpa using h2
      · exact h2

/-- Claim C3: after construction and after every clear, and throughout any
add sequence, the restart array is nonempty with first element 0; hence a
finalized block has restart count at least 1 and first restart offset 0. -/
theorem c3_restarts_nonempty_first_zero :
    (∀ (interval : Nat) (delta : Bool) (t : DataBlockIndexType) (r : ℚ)
        (kvs : List (List Nat × List Nat)),
      (BlockBuilder.addAll (BlockBuilder.new interval delta t r) kvs).restarts ≠ [] ∧
      (BlockBuilder.addAll (BlockBuilder.new interval delta t r) kvs).restarts.head? =
        some 0) ∧
    (∀ (s : BlockBuilder) (kvs : List (List Nat × List Nat)),
      (BlockBuilder.addAll s.clear kvs).restarts ≠ [] ∧
      (BlockBuilder.addAll s.clear kvs).restarts.head? = some 0) := by
  constructor
  · intro interval delta t r kvs
    exact addAll_restarts_head kvs _ (by simp [BlockBuilder.new]) (by simp [BlockBuilder.new])
  · intro s kvs
    exact addAll_restarts_head kvs _ (by simp [BlockBuilder.clear]) (by simp [BlockBuilder.clear])

/-! ## Claim C4 : the size estimate equals the finished length (binary search
index type) -/

theorem flatten_map_u32_length (l : List Nat) :
    ((l.map u32_le_bytes).flatten).length = 4 * l.length := by
  induction l with
  | nil => simp
  | cons a t ih =>
    simp only [List.map_cons, List.flatten_cons, List.length_append, ih,
      List.length_cons]
    simp [u32_le_bytes]
    ring

theorem finish_length_no_hash (s : BlockBuilder)
    (hv : s.hash_index_builder.valid = false) :
    s.finish.length = s.buff.length + 4 * s.restarts.length + 4 := by
  unfold BlockBuilder.finish
  rw [if_neg (by simp [hv])]
  simp only [List.length_append, flatten_map_u32_length, u32_le_bytes,
    List.length_cons, List.length_nil]

theorem addAll_estimate_inv (kvs : List (List Nat × List Nat)) :
    ∀ s : BlockBuilder, s.estimate = s.buff.length + 4 * s.restarts.length + 4 →
    (BlockBuilder.addAll s kvs).estimate =
      (BlockBuilder.addAll s kvs).buff.length +
        4 * (BlockBuilder.addAll s kvs).restarts.length + 4 := by
  induction kvs with
  | nil =>
    intro s h
    exact h
  | cons kv kvs ih =>
    intro s h
    obtain ⟨k, v⟩ := kv
    rw [BlockBuilder.addAll_cons]
    refine ih (s.add k v) ?_
    obtain ⟨h1, h2, -, -, -, -, h7, -⟩ := BlockBuilder.add_fields s k v
    rw [h1, h2, h7, h]
    split_ifs <;> simp <;> ring

/-- Claim C4: for a builder with index type DataBlockBinarySearch, after any
add sequence current_size_estimate equals exactly the byte length of the
buffer finish would return (entries, 4 bytes per restart, 4-byte footer). -/
theorem c4_estimate_exact :
    ∀ (interval : Nat) (delta : Bool) (r : ℚ) (kvs : List (List Nat × List Nat)),
      (BlockBuilder.addAll
        (BlockBuilder.new interval delta DataBlockIndexType.DataBlockBinarySearch r)
        kvs).current_size_estimate =
      (BlockBuilder.addAll
        (BlockBuilder.new interval delta DataBlockIndexType.DataBlockBinarySearch r)
        kvs).finish.length := by
  intro interval delta r kvs
  have hv0 : (BlockBuilder.new interval delta
      DataBlockIndexType.DataBlockBinarySearch r).hash_index_builder.valid = false := by
    simp [BlockBuilder.new, DataBlockHashIndexBuilder.defaultBuilder,
      DataBlockHashIndexBuilder.valid]
  have hv : (BlockBuilder.addAll
      (BlockBuilder.new interval delta DataBlockIndexType.DataBlockBinarySearch r)
      kvs).hash_index_builder.valid = false := by
    rw [(BlockBuilder.addAll_config kvs _).2.2.2]
    exact hv0
  have hest := addAll_estimate_inv kvs
    (BlockBuilder.new interval delta DataBlockIndexType.DataBlockBinarySearch r)
    (by simp [BlockBuilder.new])
  rw [BlockBuilder.current_size_estimate, if_neg (by simp [hv]),
    finish_length_no_hash _ hv]
  simpa using hest

/-! ## Claim C5 : hash index retention condition at finish -/

theorem le_decode_u32_bytes (x : Nat) :
    le_decode_u32 (u32_le_bytes x) = x % W32 := by
  have hW0 : W32 = 4294967296 := rfl
  simp only [u32_le_bytes, le_decode_u32, List.getD]
  simp
  rw [hW0]
  omega

theorem drop_last_four {a f : List Nat} (hf : f.length = 4) :
    (a ++ f).drop ((a ++ f).length - 4) = f := by
  rw [List.length_append, hf, show a.length + 4 - 4 = a.length by omega,
    List.drop_left]

theorem pack_lt_W32 (t : DataBlockIndexType) (n : Nat) :
    pack_index_type_and_num_restarts t n < W32 := by
  have hW0 : W32 = 4294967296 := rfl
  unfold pack_index_type_and_num_restarts
  rw [hW0]
  have := Nat.mod_lt n (y := 2147483648) (by norm_num)
  cases t <;> simp <;> omega

/-- Claim C5: finish appends the serialized hash-index bytes and records
index type DataBlockBinaryAndHash in the footer exactly when the hash index
builder is valid (initialized) and the current size estimate is strictly
below MAX_BLOCK_SIZE_SUPPORTED_BY_HASH_INDEX; otherwise it appends no hash
bytes and the footer records DataBlockBinarySearch — no error in either
case, only a silent downgrade. The footer bit is read back out of the
returned buffer itself. -/
theorem c5_hash_index_retention :
    ∀ s : BlockBuilder,
      s.finish = s.buff ++ (s.restarts.map u32_le_bytes).flatten ++
        (if s.hash_index_builder.valid = true ∧
            s.current_size_estimate < MAX_BLOCK_SIZE_SUPPORTED_BY_HASH_INDEX
          then s.hash_index_builder.finishBytes else []) ++
        u32_le_bytes (pack_index_type_and_num_restarts
          (if s.hash_index_builder.valid = true ∧
              s.current_size_estimate < MAX_BLOCK_SIZE_SUPPORTED_BY_HASH_INDEX
            then DataBlockIndexType.DataBlockBinaryAndHash
            else DataBlockIndexType.DataBlockBinarySearch)
          (s.restarts.length % W32)) ∧
      le_decode_u32 (s.finish.drop (s.finish.length - 4)) / 2147483648 =
        (if s.hash_index_builder.valid = true ∧
            s.current_size_estimate < MAX_BLOCK_SIZE_SUPPORTED_BY_HASH_INDEX
          then 1 else 0) := by
  intro s
  by_cases hcond : s.hash_index_builder.valid = true ∧
      s.current_size_estimate < MAX_BLOCK_SIZE_SUPPORTED_BY_HASH_INDEX
  · have hfin : s.finish = s.buff ++ (s.restarts.map u32_le_bytes).flatten ++
        s.hash_index_builder.finishBytes ++
        u32_le_bytes (pack_index_type_and_num_restarts
          DataBlockIndexType.DataBlockBinaryAndHash (s.restarts.length % W32)) := by
      unfold BlockBuilder.finish
      rw [if_pos (by exact ⟨by simpa using hcond.1, hcond.2⟩)]
    constructor
    · rw [hfin, if_pos hcond, if_pos hcond]
    · rw [hfin, if_pos hcond]
      rw [show s.buff ++ (s.restarts.map u32_le_bytes).flatten ++
          s.hash_index_builder.finishBytes ++
          u32_le_bytes (pack_index_type_and_num_restarts
            DataBlockIndexType.DataBlockBinaryAndHash (s.restarts.length % W32)) =
          (s.buff ++ (s.restarts.map u32_le_bytes).flatten ++
            s.hash_index_builder.finishBytes) ++
          u32_le_bytes (pack_index_type_and_num_restarts
            DataBlockIndexType.DataBlockBinaryAndHash (s.restarts.length % W32)) by
        simp [List.append_assoc]]
      rw [drop_last_four (by simp [u32_le_bytes])]
      rw [le_decode_u32_bytes, Nat.mod_eq_of_lt (pack_lt_W32 _ _)]
      unfold pack_index_type_and_num_restarts
      have := Nat.mod_lt (s.restarts.length % W32) (y := 2147483648) (by norm_num)
      simp
  · have hfin : s.finish = s.buff ++ (s.restarts.map u32_le_bytes).flatten ++
        u32_le_bytes (pack_index_type_and_num_restarts
          DataBlockIndexType.DataBlockBinarySearch (s.restarts.length % W32)) := by
      unfold BlockBuilder.finish
      rw [if_neg (by
        intro hcontra
        exact hcond ⟨by simpa using hcontra.1, hcontra.2⟩)]
    constructor
    · rw [hfin, if_neg hcond, if_neg hcond]
      simp
    · rw [hfin, if_neg hcond]
      rw [show s.buff ++ (s.restarts.map u32_le_bytes).flatten ++
          u32_le_bytes (pack_index_type_and_num_restarts
            DataBlockIndexType.DataBlockBinarySearch (s.restarts.length % W32)) =
          (s.buff ++ (s.restarts.map u32_le_bytes).flatten) ++
          u32_le_bytes (pack_index_type_and_num_restarts
            DataBlockIndexType.DataBlockBinarySearch (s.restarts.length % W32)) by
        simp [List.append_assoc]]
      rw [drop_last_four (by simp [u32_le_bytes])]
      rw [le_decode_u32_bytes, Nat.mod_eq_of_lt (pack_lt_W32 _ _)]
      unfold pack_index_type_and_num_restarts
      have := Nat.mod_lt (s.restarts.length % W32) (y := 2147483648) (by norm_num)
      simp

/-! ## Claim C8 : clear then replay equals a fresh builder -/

theorem addAll_hash_of_invalid (kvs : List (List Nat × List Nat)) :
    ∀ s : BlockBuilder, s.hash_index_builder.valid = false →
    (BlockBuilder.addAll s kvs).hash_index_builder = s.hash_index_builder := by
  induction kvs with
  | nil =>
    intro s h
    rfl
  | cons kv kvs ih =>
    intro s h
    obtain ⟨k, v⟩ := kv
    rw [BlockBuilder.addAll_cons]
    have h8 := (BlockBuilder.add_fields s k v).2.2.2.2.2.2.2
    rw [if_neg (by simp [h])] at h8
    rw [ih (s.add k v) (by rw [h8]; exact h), h8]

theorem clear_addAll_new (interval : Nat) (delta : Bool) (t : DataBlockIndexType)
    (r : ℚ) (kvs0 : List (List Nat × List Nat)) :
    (BlockBuilder.addAll (BlockBuilder.new interval delta t r) kvs0).clear =
      BlockBuilder.new interval delta t r := by
  obtain ⟨hc1, hc2, hc3, hc4⟩ :=
    BlockBuilder.addAll_config kvs0 (BlockBuilder.new interval delta t r)
  ext1
  · simp [BlockBuilder.clear, BlockBuilder.new]
  · simp [BlockBuilder.clear, BlockBuilder.new]
  · simp [BlockBuilder.clear, BlockBuilder.new]
  · simp [BlockBuilder.clear, BlockBuilder.new]
  · simpa [BlockBuilder.clear, BlockBuilder.new] using hc1
  · simpa [BlockBuilder.clear, BlockBuilder.new] using hc2
  · simp only [BlockBuilder.clear]
    by_cases hval : (BlockBuilder.addAll (BlockBuilder.new interval delta t r)
        kvs0).hash_index_builder.valid
    · rw [if_pos hval]
      ext1
      · simpa [DataBlockHashIndexBuilder.clearEntries] using hc3
      · cases t <;>
          simp [DataBlockHashIndexBuilder.clearEntries, BlockBuilder.new,
            DataBlockHashIndexBuilder.defaultBuilder, DataBlockHashIndexBuilder.init]
    · rw [if_neg hval]
      have hnew : (BlockBuilder.new interval delta t r).hash_index_builder.valid = false := by
        rw [← hc4]
        simpa using hval
      exact addAll_hash_of_invalid kvs0 _ hnew
  · simp [BlockBuilder.clear, BlockBuilder.new]

/-- Claim C8: clearing a builder reached by any add sequence (finish does not
mutate the modelled builder state, so post-finish states are covered) and
replaying any add sequence yields finish output byte-identical to a freshly
constructed builder with the same configuration fed the same sequence. -/
theorem c8_clear_replay_identical :
    ∀ (interval : Nat) (delta : Bool) (t : DataBlockIndexType) (r : ℚ)
        (kvs0 kvs : List (List Nat × List Nat)),
      (BlockBuilder.addAll
        ((BlockBuilder.addAll (BlockBuilder.new interval delta t r) kvs0).clear)
        kvs).finish =
      (BlockBuilder.addAll (BlockBuilder.new interval delta t r) kvs).finish := by
  intro interval delta t r kvs0 kvs
  rw [clear_addAll_new]

/-! ## Claim C2 : entries at restart offsets store shared length 0 -/

theorem sharedOf_restart {s : BlockBuilder} (k : List Nat)
    (hc : s.count ≥ s.block_restart_interval) : BlockBuilder.sharedOf s k = 0 := by
  simp [BlockBuilder.sharedOf, hc]

theorem difference_offset_nil (k : List Nat) : difference_offset [] k = 0 := by
  cases k <;> rfl

theorem sharedOf_empty_last {s : BlockBuilder} (k : List Nat)
    (hlk : s.last_key = []) : BlockBuilder.sharedOf s k = 0 := by
  unfold BlockBuilder.sharedOf
  rw [hlk]
  split_ifs <;> simp [difference_offset_nil]

theorem entryBytes_head (k v : List Nat) :
    (BlockBuilder.entryBytes 0 k v).get? 0 = some 0 := by
  unfold BlockBuilder.entryBytes
  rw [show (0 : Nat) % W32 = 0 from rfl, encode_var_uint32_eq]
  rfl

theorem add_restart_inv (s : BlockBuilder) (k v : List Nat)
    (hlen : (s.add k v).buff.length < W32)
    (h1 : s.buff = [] → s.last_key = [] ∧ s.restarts = [0])
    (h2 : ∀ r ∈ s.restarts, s.buff ≠ [] → r < s.buff.length ∧ s.buff.get? r = some 0) :
    ((s.add k v).buff = [] → (s.add k v).last_key = [] ∧ (s.add k v).restarts = [0]) ∧
    (∀ r ∈ (s.add k v).restarts, (s.add k v).buff ≠ [] →
      r < (s.add k v).buff.length ∧ (s.add k v).buff.get? r = some 0) := by
  obtain ⟨hb, hr, hlk, hcnt, -, -, -, -⟩ := BlockBuilder.add_fields s k v
  have hent := BlockBuilder.entryBytes_ne_nil (BlockBuilder.sharedOf s k) k v
  have hentlen : 1 ≤ (BlockBuilder.entryBytes (BlockBuilder.sharedOf s k) k v).length := by
    cases hgg : BlockBuilder.entryBytes (BlockBuilder.sharedOf s k) k v with
    | nil => exact absurd hgg hent
    | cons a t => simp
  have hne : (s.add k v).buff ≠ [] := by
    rw [hb]
    intro hcontra
    exact hent (List.append_eq_nil.mp hcontra).2
  have hlen2 : (s.add k v).buff.length = s.buff.length +
      (BlockBuilder.entryBytes (BlockBuilder.sharedOf s k) k v).length := by
    rw [hb]
    simp
  refine ⟨fun hcontra => absurd hcontra hne, ?_⟩
  intro r hrmem _hbuff
  by_cases hbe : s.buff = []
  · -- very first entry: the old restart array is [0] and shared is 0
    obtain ⟨hlk0, hrs0⟩ := h1 hbe
    have hsh : BlockBuilder.sharedOf s k = 0 := by
      by_cases hc : s.count ≥ s.block_restart_interval
      · exact sharedOf_restart k hc
      · exact sharedOf_empty_last k hlk0
    have hr0 : r = 0 := by
      rw [hr, hrs0, hbe] at hrmem
      split_ifs at hrmem <;> simpa using hrmem
    subst hr0
    constructor
    · omega
    · rw [hb, hbe, List.nil_append, hsh]
      exact entryBytes_head k v
  · -- appending preserves the old restart bytes; a new restart points at the
    -- fresh entry, whose first byte encodes shared = 0
    rw [hr] at hrmem
    have hmain : r ∈ s.restarts ∨
        (s.count ≥ s.block_restart_interval ∧ r = s.buff.length % W32) := by
      split_ifs at hrmem with hc
      · rcases List.mem_append.mp hrmem with hmem | hmem
        · exact Or.inl hmem
        · exact Or.inr ⟨hc, by simpa using hmem⟩
      · exact Or.inl hrmem
    rcases hmain with hmem | ⟨hc, hrv⟩
    · obtain ⟨hlt, hget⟩ := h2 r hmem hbe
      constructor
      · omega
      · rw [hb, List.get?_append hlt]
        exact hget
    · have hslt : s.buff.length < W32 := by omega
      rw [Nat.mod_eq_of_lt hslt] at hrv
      subst hrv
      constructor
      · omega
      · rw [hb, List.get?_append_right (le_refl _), Nat.sub_self,
          sharedOf_restart k hc]
        exact entryBytes_head k v

theorem addAll_restart_inv (kvs : List (List Nat × List Nat)) :
    ∀ s : BlockBuilder, (BlockBuilder.addAll s kvs).buff.length < W32 →
    (s.buff = [] → s.last_key = [] ∧ s.restarts = [0]) →
    (∀ r ∈ s.restarts, s.buff ≠ [] → r < s.buff.length ∧ s.buff.get? r = some 0) →
    ((BlockBuilder.addAll s kvs).buff = [] →
      (BlockBuilder.addAll s kvs).last_key = [] ∧
      (BlockBuilder.addAll s kvs).restarts = [0]) ∧
    (∀ r ∈ (BlockBuilder.addAll s kvs).restarts, (BlockBuilder.addAll s kvs).buff ≠ [] →
      r < (BlockBuilder.addAll s kvs).buff.length ∧
      (BlockBuilder.addAll s kvs).buff.get? r = some 0) := by
  induction kvs with
  | nil =>
    intro s hlen h1 h2
    exact ⟨h1, h2⟩
  | cons kv kvs ih =>
    intro s hlen h1 h2
    obtain ⟨k, v⟩ := kv
    rw [BlockBuilder.addAll_cons] at hlen ⊢
    have hstep : (s.add k v).buff.length < W32 := by
      have := BlockBuilder.addAll_buff_mono kvs (s.add k v)
      omega
    obtain ⟨g1, g2⟩ := add_restart_inv s k v hstep h1 h2
    exact ih (s.add k v) hlen g1 g2

theorem get32_at_zero_byte {buff : List Nat} {r : Nat} (h : buff.get? r = some 0) :
    get_var_uint32 (buff.drop r) 0 = U32Res.ok 0 1 := by
  obtain ⟨hlt, hget⟩ := List.get?_eq_some.mp h
  rw [List.get_eq_getElem] at hget
  rw [List.drop_eq_getElem_cons hlt, hget]
  rfl

/-- Claim C2: in any state reached by a nonempty add sequence (with the
buffer within u32 range, as the restart offsets are stored as u32), every
recorded restart offset points inside the buffer at an entry whose first
varint — the shared key length — decodes to 0, for either delta-encoding
setting. -/
theorem c2_restart_shared_zero :
    ∀ (interval : Nat) (delta : Bool) (t : DataBlockIndexType) (r : ℚ)
        (kvs : List (List Nat × List Nat)),
      kvs ≠ [] →
      (BlockBuilder.addAll (BlockBuilder.new interval delta t r) kvs).buff.length < W32 →
      ∀ rs ∈ (BlockBuilder.addAll (BlockBuilder.new interval delta t r) kvs).restarts,
        rs < (BlockBuilder.addAll (BlockBuilder.new interval delta t r) kvs).buff.length ∧
        get_var_uint32
          ((BlockBuilder.addAll (BlockBuilder.new interval delta t r) kvs).buff.drop rs)
          0 = U32Res.ok 0 1 := by
  intro interval delta t r kvs hne hlen rs hmem
  obtain ⟨-, hinv⟩ := addAll_restart_inv kvs (BlockBuilder.new interval delta t r) hlen
    (by intro; exact ⟨rfl, rfl⟩)
    (by
      intro rr hrr hcontra
      exact absurd rfl hcontra)
  have hbne : (BlockBuilder.addAll (BlockBuilder.new interval delta t r) kvs).buff ≠ [] := by
    cases kvs with
    | nil => exact absurd rfl hne
    | cons kv rest =>
      obtain ⟨k, v⟩ := kv
      have hmono := BlockBuilder.addAll_buff_mono rest
        ((BlockBuilder.new interval delta t r).add k v)
      have hb := (BlockBuilder.add_fields (BlockBuilder.new interval delta t r) k v).1
      have hent := BlockBuilder.entryBytes_ne_nil
        (BlockBuilder.sharedOf (BlockBuilder.new interval delta t r) k) k v
      have hlen1 : 1 ≤ ((BlockBuilder.new interval delta t r).add k v).buff.length := by
        rw [hb]
        cases hgg : BlockBuilder.entryBytes
            (BlockBuilder.sharedOf (BlockBuilder.new interval delta t r) k) k v with
        | nil => exact absurd hgg hent
        | cons a tl =>
          simp [hgg]
          omega
      intro hcontra
      have hzero : (BlockBuilder.addAll (BlockBuilder.new interval delta t r)
          ((k, v) :: rest)).buff.length = 0 := by
        rw [hcontra]
        rfl
      rw [BlockBuilder.addAll_cons] at hzero
      omega
  obtain ⟨hlt, hget⟩ := hinv rs hmem hbne
  exact ⟨hlt, get32_at_zero_byte hget⟩

/-- Witness for C2: one key/value pair under delta encoding with restart
interval 1. -/
theorem c2_witness :
    0 < (BlockBuilder.addAll
      (BlockBuilder.new 1 true DataBlockIndexType.DataBlockBinarySearch 0)
      [([5], [6])]).buff.length ∧
    get_var_uint32
      ((BlockBuilder.addAll
        (BlockBuilder.new 1 true DataBlockIndexType.DataBlockBinarySearch 0)
        [([5], [6])]).buff.drop 0) 0 = U32Res.ok 0 1 :=
  c2_restart_shared_zero 1 true DataBlockIndexType.DataBlockBinarySearch 0
    [([5], [6])] (by decide) (by decide) 0 (by decide)

/-! ## Claim C1 : builder/reader round trip -/

theorem difference_offset_le (a : List Nat) : ∀ b : List Nat,
    difference_offset a b ≤ a.length ∧ difference_offset a b ≤ b.length := by
  induction a with
  | nil =>
    intro b
    cases b <;> simp [difference_offset]
  | cons x xs ih =>
    intro b
    cases b with
    | nil => simp [difference_offset]
    | cons y ys =>
      unfold difference_offset
      split_ifs with hxy
      · have := ih ys
        simp only [List.length_cons]
        omega
      · simp

theorem difference_offset_take (a : List Nat) : ∀ b : List Nat,
    a.take (difference_offset a b) = b.take (difference_offset a b) := by
  induction a with
  | nil =>
    intro b
    cases b <;> simp [difference_offset]
  | cons x xs ih =>
    intro b
    cases b with
    | nil => simp [difference_offset]
    | cons y ys =>
      unfold difference_offset
      split_ifs with hxy
      · subst hxy
        simp only [List.take_succ_cons, List.cons.injEq, true_and]
        exact ih ys
      · simp

theorem addAll_buff_enc (kvs : List (List Nat × List Nat)) : ∀ s : BlockBuilder,
    (BlockBuilder.addAll s kvs).buff =
      s.buff ++ BlockBuilder.encKVs s.block_restart_interval s.use_delta_encoding
        kvs s.last_key s.count := by
  induction kvs with
  | nil =>
    intro s
    simp [BlockBuilder.addAll_nil, BlockBuilder.encKVs]
  | cons kv rest ih =>
    intro s
    obtain ⟨k, v⟩ := kv
    rw [BlockBuilder.addAll_cons, ih (s.add k v)]
    obtain ⟨hb, -, hlk, hcnt, hi, hd, -, -⟩ := BlockBuilder.add_fields s k v
    rw [hb, hi, hd, hlk, hcnt, List.append_assoc]
    congr 1
    by_cases hc : s.count ≥ s.block_restart_interval
    · rw [if_pos hc]
      conv_rhs => rw [BlockBuilder.encKVs]
      rw [if_pos hc, sharedOf_restart k hc]
    · rw [if_neg hc]
      conv_rhs => rw [BlockBuilder.encKVs]
      rw [if_neg hc]
      congr 1
      unfold BlockBuilder.sharedOf
      rw [if_neg hc]

theorem addAll_restarts_le (kvs : List (List Nat × List Nat)) : ∀ s : BlockBuilder,
    (BlockBuilder.addAll s kvs).restarts.length ≤ s.restarts.length + kvs.length := by
  induction kvs with
  | nil =>
    intro s
    simp [BlockBuilder.addAll_nil]
  | cons kv rest ih =>
    intro s
    obtain ⟨k, v⟩ := kv
    rw [BlockBuilder.addAll_cons]
    have hr := (BlockBuilder.add_fields s k v).2.1
    have := ih (s.add k v)
    rw [hr] at this
    simp only [List.length_cons]
    split_ifs at this <;> (try simp at this) <;> omega

theorem finish_no_hash (s : BlockBuilder) (hv : s.hash_index_builder.valid = false) :
    s.finish = s.buff ++ (s.restarts.map u32_le_bytes).flatten ++
      u32_le_bytes (pack_index_type_and_num_restarts
        DataBlockIndexType.DataBlockBinarySearch (s.restarts.length % W32)) := by
  unfold BlockBuilder.finish
  rw [if_neg (by simp [hv])]

theorem readVar32_encode {a : Nat} (ha : a < W32) (rest : List Nat) :
    readVar32 (encode_var_uint32 a ++ rest) = some (a, (encode_var_uint32 a).length) := by
  unfold readVar32
  rw [get32_of_encode ha rest 0]
  simp

theorem entryBytes_decomp (sh : Nat) (k v : List Nat) :
    BlockBuilder.entryBytes sh k v =
      encode_var_uint32 (sh % W32) ++
        (encode_var_uint32 ((k.length - sh) % W32) ++
          (encode_var_uint32 (v.length % W32) ++ (k.drop sh ++ v))) := by
  unfold BlockBuilder.entryBytes
  simp [List.append_assoc]

theorem readEntry_entryBytes (k v tail rLast : List Nat) (sh : Nat)
    (hk : k.length < W32) (hv : v.length < W32) (hsh : sh ≤ k.length)
    (hrec : rLast.take sh = k.take sh) :
    readEntry (BlockBuilder.entryBytes sh k v ++ tail) rLast =
      some ((k, v), (BlockBuilder.entryBytes sh k v).length) := by
  have hshW : sh % W32 = sh := Nat.mod_eq_of_lt (by omega)
  have hnsW : (k.length - sh) % W32 = k.length - sh := Nat.mod_eq_of_lt (by omega)
  have hvW : v.length % W32 = v.length := Nat.mod_eq_of_lt hv
  have hdata : BlockBuilder.entryBytes sh k v ++ tail =
      encode_var_uint32 (sh % W32) ++
        (encode_var_uint32 ((k.length - sh) % W32) ++
          (encode_var_uint32 (v.length % W32) ++ (k.drop sh ++ (v ++ tail)))) := by
    rw [entryBytes_decomp]
    simp [List.append_assoc]
  rw [hdata]
  have e1 := readVar32_encode (a := sh % W32) (by omega)
    (encode_var_uint32 ((k.length - sh) % W32) ++
      (encode_var_uint32 (v.length % W32) ++ (k.drop sh ++ (v ++ tail))))
  have e2 := readVar32_encode (a := (k.length - sh) % W32) (by omega)
    (encode_var_uint32 (v.length % W32) ++ (k.drop sh ++ (v ++ tail)))
  have e3 := readVar32_encode (a := v.length % W32) (by omega)
    (k.drop sh ++ (v ++ tail))
  simp only [readEntry, e1, e2, e3, List.drop_left]
  rw [hshW, hnsW, hvW]
  have hrest : (k.drop sh ++ (v ++ tail)).length =
      (k.length - sh) + (v.length + tail.length) := by
    simp
  rw [if_pos (by rw [hrest]; omega)]
  have htake : (k.drop sh ++ (v ++ tail)).take (k.length - sh) = k.drop sh := by
    rw [List.take_left' (by simp)]
  have hdrop : (k.drop sh ++ (v ++ tail)).drop (k.length - sh) = v ++ tail := by
    rw [List.drop_left' (by simp)]
  rw [htake, hdrop, List.take_left' rfl]
  rw [hrec, List.take_append_drop]
  have hlen : (BlockBuilder.entryBytes sh k v).length =
      (encode_var_uint32 sh).length +
        ((encode_var_uint32 (k.length - sh)).length +
          ((encode_var_uint32 v.length).length + ((k.length - sh) + v.length))) := by
    rw [entryBytes_decomp, hshW, hnsW, hvW]
    simp
  rw [hlen]
  simp
  omega

theorem entryBytes_length_pos (sh : Nat) (k v : List Nat) :
    1 ≤ (BlockBuilder.entryBytes sh k v).length := by
  have h := BlockBuilder.entryBytes_ne_nil sh k v
  cases hgg : BlockBuilder.entryBytes sh k v with
  | nil => exact absurd hgg h
  | cons a t => simp

theorem readEntries_encKVs (interval : Nat) (delta : Bool) :
    ∀ (kvs : List (List Nat × List Nat)) (bLast rLast : List Nat) (count fuel : Nat),
      fuel ≥ (BlockBuilder.encKVs interval delta kvs bLast count).length →
      (delta = true → rLast = bLast) →
      (∀ kv ∈ kvs, kv.1.length < W32 ∧ kv.2.length < W32) →
      readEntries fuel (BlockBuilder.encKVs interval delta kvs bLast count) rLast =
        some kvs := by
  intro kvs
  induction kvs with
  | nil =>
    intro bLast rLast count fuel hfuel hcompat hlens
    rw [BlockBuilder.encKVs]
    cases fuel <;> rfl
  | cons kv rest ih =>
    intro bLast rLast count fuel hfuel hcompat hlens
    obtain ⟨k, v⟩ := kv
    have hk : k.length < W32 := (hlens (k, v) (by simp)).1
    have hv : v.length < W32 := (hlens (k, v) (by simp)).2
    have hlens2 : ∀ kv ∈ rest, kv.1.length < W32 ∧ kv.2.length < W32 := by
      intro kv hkv
      exact hlens kv (by simp [hkv])
    have hmain : ∀ (sh : Nat), sh ≤ k.length → rLast.take sh = k.take sh →
        BlockBuilder.encKVs interval delta ((k, v) :: rest) bLast count =
          BlockBuilder.entryBytes sh k v ++
            BlockBuilder.encKVs interval delta rest (if delta then k else bLast)
              (if count ≥ interval then 1 else count + 1) →
        readEntries fuel (BlockBuilder.encKVs interval delta ((k, v) :: rest) bLast count)
          rLast = some ((k, v) :: rest) := by
      intro sh hshle hsh htotal
      set tail := BlockBuilder.encKVs interval delta rest (if delta then k else bLast)
        (if count ≥ interval then 1 else count + 1) with htail
      have hentpos := entryBytes_length_pos sh k v
      have hdatalen : (BlockBuilder.encKVs interval delta ((k, v) :: rest) bLast count).length =
          (BlockBuilder.entryBytes sh k v).length + tail.length := by
        rw [htotal]
        simp
      cases fuel with
      | zero =>
        exfalso
        rw [hdatalen] at hfuel
        omega
      | succ f =>
        have hfuel2 : f ≥ tail.length := by
          rw [hdatalen] at hfuel
          omega
        rw [htotal]
        cases hdd : BlockBuilder.entryBytes sh k v ++ tail with
        | nil =>
          exact absurd (List.append_eq_nil.mp hdd).1
            (BlockBuilder.entryBytes_ne_nil _ _ _)
        | cons d0 dtl =>
          have hre := readEntry_entryBytes k v tail rLast sh hk hv hshle hsh
          rw [hdd] at hre
          have hih := ih (if delta then k else bLast) k
            (if count ≥ interval then 1 else count + 1) f hfuel2
            (by
              intro hdel
              rw [if_pos hdel])
            hlens2
          simp only [readEntries, hre]
          rw [if_neg (by omega)]
          rw [← hdd, List.drop_left]
          simp only [← htail, hih]
    by_cases hc : count ≥ interval
    · refine hmain 0 (by omega) (by simp) ?_
      conv_lhs => rw [BlockBuilder.encKVs]
      simp [hc]
    · by_cases hd : delta
      · refine hmain (difference_offset bLast k) ((difference_offset_le bLast k).2)
          ?_ ?_
        · rw [hcompat hd]
          exact difference_offset_take bLast k
        · conv_lhs => rw [BlockBuilder.encKVs]
          simp [hc, hd]
      · refine hmain 0 (by omega) (by simp) ?_
        conv_lhs => rw [BlockBuilder.encKVs]
        simp [hc, hd]

/-- Claim C1: for every sequence of key/value pairs added in strictly
ascending key order to a BlockBuilder (binary-search index type, any restart
interval at least 1, delta encoding on or off, with lengths in u32 range and
a restart count within the footer field), the buffer returned by finish,
scanned by the spec-modelled reader from the first entry (seek_to_first then
repeated next), reproduces exactly the original sequence, byte-identical and
in order. -/
theorem c1_block_roundtrip :
    ∀ (kvs : List (List Nat × List Nat)) (interval : Nat) (delta : Bool) (r : ℚ),
      1 ≤ interval →
      StrictlyAscending kvs →
      (∀ kv ∈ kvs, kv.1.length < W32 ∧ kv.2.length < W32) →
      kvs.length + 1 < 2147483648 →
      blockEntries ((BlockBuilder.addAll (BlockBuilder.new interval delta
        DataBlockIndexType.DataBlockBinarySearch r) kvs).finish) = some kvs := by
  intro kvs interval delta r hint hasc hlens hcount
  have hW0 : W32 = 4294967296 := rfl
  set S := BlockBuilder.addAll (BlockBuilder.new interval delta
    DataBlockIndexType.DataBlockBinarySearch r) kvs with hS
  have hvalid : S.hash_index_builder.valid = false := by
    rw [hS, (BlockBuilder.addAll_config kvs _).2.2.2]
    simp [BlockBuilder.new, DataBlockHashIndexBuilder.defaultBuilder,
      DataBlockHashIndexBuilder.valid]
  have hbuff : S.buff = BlockBuilder.encKVs interval delta kvs [] 0 := by
    rw [hS, addAll_buff_enc]
    simp [BlockBuilder.new]
  have hRle : S.restarts.length ≤ 1 + kvs.length := by
    rw [hS]
    have := addAll_restarts_le kvs (BlockBuilder.new interval delta
      DataBlockIndexType.DataBlockBinarySearch r)
    simpa [BlockBuilder.new] using this
  have hR31 : S.restarts.length < 2147483648 := by omega
  have hR32 : S.restarts.length % W32 = S.restarts.length :=
    Nat.mod_eq_of_lt (by omega)
  have hpack : pack_index_type_and_num_restarts
      DataBlockIndexType.DataBlockBinarySearch (S.restarts.length % W32) =
      S.restarts.length := by
    unfold pack_index_type_and_num_restarts
    rw [hR32, Nat.mod_eq_of_lt hR31]
    simp
  have hfin : S.finish = S.buff ++ (S.restarts.map u32_le_bytes).flatten ++
      u32_le_bytes S.restarts.length := by
    rw [finish_no_hash S hvalid, hpack]
  have hflat : ((S.restarts.map u32_le_bytes).flatten).length =
      4 * S.restarts.length := flatten_map_u32_length _
  have hfoot : (u32_le_bytes S.restarts.length).length = 4 := by
    simp [u32_le_bytes]
  have htot : S.finish.length = S.buff.length + 4 * S.restarts.length + 4 := by
    rw [hfin]
    simp only [List.length_append, hflat, hfoot]
  rw [hfin]
  simp only [blockEntries]
  rw [if_neg (by
    simp only [List.length_append, hflat, hfoot]
    omega)]
  rw [drop_last_four hfoot, le_decode_u32_bytes, hR32]
  rw [show S.restarts.length % 2147483648 = S.restarts.length from
    Nat.mod_eq_of_lt hR31]
  rw [if_neg (by
    simp only [List.length_append, hflat, hfoot]
    omega)]
  have hend : (S.buff ++ (S.restarts.map u32_le_bytes).flatten ++
      u32_le_bytes S.restarts.length).length - 4 - 4 * S.restarts.length =
      S.buff.length := by
    simp only [List.length_append, hflat, hfoot]
    omega
  rw [hend]
  rw [List.append_assoc, List.take_left' rfl]
  rw [hbuff]
  exact readEntries_encKVs interval delta kvs [] [] 0
    (BlockBuilder.encKVs interval delta kvs [] 0).length (le_refl _)
    (fun _ => rfl) hlens

/-- Witness for C1 on a two-entry ascending sequence with restart interval 1
and delta encoding on. -/
theorem c1_witness :
    blockEntries ((BlockBuilder.addAll (BlockBuilder.new 1 true
      DataBlockIndexType.DataBlockBinarySearch 0)
      [([1], [2]), ([1, 3], [4, 5])]).finish) =
      some [([1], [2]), ([1, 3], [4, 5])] :=
  c1_block_roundtrip [([1], [2]), ([1, 3], [4, 5])] 1 true 0
    (by norm_num) (by decide) (by decide) (by decide)

end RocksRs
